import Mathlib

/-!
Shallow embedding of the streaming STFT pipeline of `src/fft.rs`
(rust-chromaprint).  Floating-point values (`f32`, `f64`) are modelled as
real numbers; fallible operations (slice indexing that can panic,
`Option::unwrap`) are modelled with `Option`.  The frame slicer
(`slicer::FixedSlicer`, a module of this repository whose source is not
under `src/`) is modelled from the spec's framer contract; the spectral
transform (the external `rustfft` engine) is modelled as an abstract
in-place function over complex buffers.
-/

/-- The constant `FRAME_SIZE: usize = 4096` from `src/fft.rs`. -/
def FRAME_SIZE : Nat := 4096

/-- The constant `OVERLAP: usize = FRAME_SIZE - FRAME_SIZE / 3` from `src/fft.rs`. -/
def OVERLAP : Nat := FRAME_SIZE - FRAME_SIZE / 3

/-- Model of `Complex<f32>`: a pair of real parts `re` and `im`. -/
structure Cplx where
  re : ℝ
  im : ℝ
deriving Inhabited

/-- Sequential fallible map: applies `f` to each element in order and
collects the results, failing (like a Rust panic mid-loop) as soon as one
application fails. -/
def collectSome (f : α → Option β) : List α → Option (List β)
  | [] => some []
  | a :: l =>
    match f a, collectSome f l with
    | some b, some r => some (b :: r)
    | _, _ => none

noncomputable section

/-- Model of `fold_output(fft: &[Complex<f32>]) -> Vec<f64>` from
`src/fft.rs`: `half_input = fft.len() / 2`, and for each `idx` in
`0..(half_input + 1)` the output element is
`fft[idx].re * fft[idx].re + fft[idx].im * fft[idx].im`.  The indexing
`fft[idx]` panics when out of bounds, modelled by `Option`. -/
def fold_output (fft : List Cplx) : Option (List ℝ) :=
  let half_input := fft.length / 2
  collectSome
    (fun idx => (fft.get? idx).map (fun c => c.re * c.re + c.im * c.im))
    (List.range (half_input + 1))

/-- Model of `prepare_hamming_window(size: usize, scale: f32) -> Vec<f32>`
from `src/fft.rs`: `result[idx] = scale * (0.54 - 0.46 * cos(idx * 2 * PI
/ (size - 1)))` for `idx` in `0..size`.  The subtraction `size as f32 -
1.0` is real subtraction (it does not saturate at zero), and for
`size = 1` the division is the degenerate `0 / 0`. -/
def prepare_hamming_window (size : Nat) (scale : ℝ) : List ℝ :=
  (List.range size).map
    (fun (idx : Nat) =>
      scale * (0.54 - 0.46 * Real.cos ((idx : ℝ) * 2 * Real.pi / ((size : ℝ) - 1))))

/-- Modelled from the spec: the state of `slicer::FixedSlicer<i16>`, a
module of this repository whose source is not under `src/`.  Per the
framer contract it is constructed with a frame size and a hop size and
retains leftover samples across calls in an internal buffer. -/
structure FixedSlicer where
  frame_size : Nat
  hop_size : Nat
  buffer : List Int

/-- Modelled from the spec: `FixedSlicer::new(frame_size, hop_size)`
starts with an empty leftover buffer. -/
def FixedSlicer.new (frame_size hop_size : Nat) : FixedSlicer :=
  { frame_size := frame_size, hop_size := hop_size, buffer := [] }

/-- Modelled from the spec: the greedy framing loop.  While the buffered
samples hold at least one complete frame, emit the first `frame_size`
samples as a frame and advance by `hop` samples; the remainder is the
leftover buffer.  Returns the emitted frames in order together with the
leftover. -/
def sliceSteps (frame_size hop : Nat) (buf : List Int) :
    List (List Int) × List Int :=
  if _h : frame_size ≤ buf.length ∧ 0 < hop ∧ 0 < buf.length then
    let rest := sliceSteps frame_size hop (buf.drop hop)
    (buf.take frame_size :: rest.1, rest.2)
  else
    ([], buf)
termination_by buf.length
decreasing_by simp only [List.length_drop]; omega

/-- Modelled from the spec: `FixedSlicer::process(data, on_frame)` appends
the new samples to the leftover buffer, invokes `on_frame` once per
complete frame in order, and retains the remainder across calls. -/
def FixedSlicer.process (s : FixedSlicer) (data : List Int) :
    List (List Int) × FixedSlicer :=
  let r := sliceSteps s.frame_size s.hop_size (s.buffer ++ data)
  (r.1, { s with buffer := r.2 })

/-- Model of `struct Fft` from `src/fft.rs`: the optional slicer (taken
out and put back by `consume`), the transform plan (the external rustfft
`Radix4<f32>` forward plan, modelled as a function on complex buffers),
and the precomputed Hamming window. -/
structure Fft where
  slicer : Option FixedSlicer
  fft : List Cplx → List Cplx
  hamming_window : List ℝ

/-- Model of `Fft::new()` from `src/fft.rs`.  The externally constructed
transform plan `Radix4::new(FRAME_SIZE, FftDirection::Forward)` is the
abstract parameter `T`; the slicer is `FixedSlicer::new(FRAME_SIZE,
FRAME_SIZE - OVERLAP)` and the window is
`prepare_hamming_window(FRAME_SIZE, 1.0 / i16::MAX as f32)`. -/
def Fft.new (T : List Cplx → List Cplx) : Fft :=
  { slicer := some (FixedSlicer.new FRAME_SIZE (FRAME_SIZE - OVERLAP))
    fft := T
    hamming_window := prepare_hamming_window FRAME_SIZE (1 / 32767) }

/-- Model of the windowing step inside the closure of `Fft::consume`:
`vec.into_iter().enumerate().map(|(idx, data)| self.hamming_window[idx] *
(data as f32)).map(|num| Complex::new(num, 0.0)).collect()`, with the
index running from `idx`.  The indexing `self.hamming_window[idx]` panics
when out of bounds, modelled by `Option`. -/
def windowed (window : List ℝ) (idx : Nat) : List Int → Option (List Cplx)
  | [] => some []
  | s :: rest =>
    match window.get? idx, windowed window (idx + 1) rest with
    | some w, some r => some (Cplx.mk (w * (s : ℝ)) 0 :: r)
    | _, _ => none

/-- Model of the per-frame body of the closure in `Fft::consume`: window
the frame, run the forward transform in place, and fold the result. -/
def processFrame (T : List Cplx → List Cplx) (window : List ℝ)
    (frame : List Int) : Option (List ℝ) :=
  match windowed window 0 frame with
  | none => none
  | some converted => fold_output (T converted)

/-- Model of `Fft::consume(&mut self, data, consumer)` from `src/fft.rs`:
take the slicer out of its `Option` (`unwrap` panics on `None`), process
the data — each emitted frame is windowed, transformed and folded, and the
folded spectra are delivered to the consumer in order — then put the
slicer back.  The returned list is the sequence of consumer invocations'
arguments; `none` models a panic. -/
def Fft.consume (st : Fft) (data : List Int) :
    Option (Fft × List (List ℝ)) :=
  match st.slicer with
  | none => none
  | some slicer0 =>
    let r := slicer0.process data
    match collectSome (processFrame st.fft st.hamming_window) r.1 with
    | none => none
    | some outs => some ({ st with slicer := some r.2 }, outs)

/-- Two successive `consume` calls, with the delivered spectra
concatenated in order. -/
def consume2 (st : Fft) (a b : List Int) : Option (Fft × List (List ℝ)) :=
  match st.consume a with
  | none => none
  | some p =>
    match p.1.consume b with
    | none => none
    | some q => some (q.1, p.2 ++ q.2)

/-- The pipeline states reachable from construction via successful
`consume` calls. -/
inductive Reachable : Fft → Prop where
  | new (T : List Cplx → List Cplx) : Reachable (Fft.new T)
  | step {st st' : Fft} {data : List Int} {outs : List (List ℝ)} :
      Reachable st → st.consume data = some (st', outs) → Reachable st'

end

/-! Helper lemmas about `collectSome`. -/

@[simp] theorem collectSome_nil {α β} {f : α → Option β} :
    collectSome f [] = some [] := rfl

@[simp] theorem collectSome_cons {α β} {f : α → Option β} {a : α} {l : List α} :
    collectSome f (a :: l) =
      (f a).bind (fun b => (collectSome f l).map (fun r => b :: r)) := by
  cases hfa : f a <;> cases hcl : collectSome f l <;>
    simp [collectSome, hfa, hcl]

theorem collectSome_length {α β} {f : α → Option β} :
    ∀ {l : List α} {r : List β}, collectSome f l = some r →
      r.length = l.length := by
  intro l
  induction l with
  | nil => intro r h; simp at h; simp [← h]
  | cons a l ih =>
    intro r h
    simp only [collectSome_cons, Option.bind_eq_some, Option.map_eq_some'] at h
    obtain ⟨b, _, r', hr', rfl⟩ := h
    simp [ih hr']

theorem collectSome_isSome {α β} {f : α → Option β} :
    ∀ {l : List α}, (collectSome f l).isSome ↔ ∀ a ∈ l, (f a).isSome := by
  intro l
  induction l with
  | nil => simp
  | cons a l ih =>
    cases hfa : f a <;> cases hcl : collectSome f l <;>
      simp_all [Option.isSome_iff_exists]

theorem collectSome_get? {α β} {f : α → Option β} :
    ∀ {l : List α} {r : List β}, collectSome f l = some r →
      ∀ i, r.get? i = (l.get? i).bind f := by
  intro l
  induction l with
  | nil => intro r h i; simp at h; subst h; simp
  | cons a l ih =>
    intro r h i
    simp only [collectSome_cons, Option.bind_eq_some, Option.map_eq_some'] at h
    obtain ⟨b, hb, r', hr', rfl⟩ := h
    cases i with
    | zero => simp [hb]
    | succ i => simpa using ih hr' i

theorem collectSome_append {α β} {f : α → Option β} (xs ys : List α) :
    collectSome f (xs ++ ys) =
      (collectSome f xs).bind
        (fun r1 => (collectSome f ys).map (fun r2 => r1 ++ r2)) := by
  induction xs with
  | nil => simp
  | cons a xs ih =>
    cases hfa : f a with
    | none => simp [hfa]
    | some b =>
      simp only [List.cons_append, collectSome_cons, hfa, Option.some_bind,
        ih, Option.bind_assoc, Option.map_bind, Option.bind_map,
        Option.map_map]
      congr 1
      funext r1
      cases hys : collectSome f ys <;> simp [hys]

/-! Helper lemmas about the slicer's greedy framing loop. -/

theorem sliceSteps_stop {fs hop : Nat} {buf : List Int}
    (h : ¬(fs ≤ buf.length ∧ 0 < hop ∧ 0 < buf.length)) :
    sliceSteps fs hop buf = ([], buf) := by
  rw [sliceSteps]
  simp [h]

theorem sliceSteps_go {fs hop : Nat} {buf : List Int}
    (h : fs ≤ buf.length ∧ 0 < hop ∧ 0 < buf.length) :
    sliceSteps fs hop buf =
      (buf.take fs :: (sliceSteps fs hop (buf.drop hop)).1,
        (sliceSteps fs hop (buf.drop hop)).2) := by
  rw [sliceSteps]
  simp [h]

theorem sliceSteps_rest_length_aux (fs hop : Nat) (hfs : 0 < fs)
    (hhop : 0 < hop) :
    ∀ (n : Nat) (buf : List Int), buf.length ≤ n →
      (sliceSteps fs hop buf).2.length < fs := by
  intro n
  induction n with
  | zero =>
    intro buf hb
    have hbuf : buf = [] := List.eq_nil_of_length_eq_zero (Nat.le_zero.mp hb)
    subst hbuf
    rw [sliceSteps_stop (by simp)]
    simpa using hfs
  | succ n ih =>
    intro buf hb
    by_cases h : fs ≤ buf.length ∧ 0 < hop ∧ 0 < buf.length
    · rw [sliceSteps_go h]
      exact ih (buf.drop hop) (by simp only [List.length_drop]; omega)
    · rw [sliceSteps_stop h]
      show buf.length < fs
      push_neg at h
      by_cases hfl : fs ≤ buf.length
      · have := h hfl hhop
        omega
      · omega

theorem sliceSteps_rest_length {fs hop : Nat} (hfs : 0 < fs) (hhop : 0 < hop)
    (buf : List Int) : (sliceSteps fs hop buf).2.length < fs :=
  sliceSteps_rest_length_aux fs hop hfs hhop buf.length buf le_rfl

theorem sliceSteps_append_aux (fs hop : Nat) (hhop : 0 < hop)
    (hle : hop ≤ fs) :
    ∀ (n : Nat) (buf extra : List Int), buf.length ≤ n →
      sliceSteps fs hop (buf ++ extra) =
        ((sliceSteps fs hop buf).1 ++
            (sliceSteps fs hop ((sliceSteps fs hop buf).2 ++ extra)).1,
          (sliceSteps fs hop ((sliceSteps fs hop buf).2 ++ extra)).2) := by
  intro n
  induction n with
  | zero =>
    intro buf extra hb
    have hbuf : buf = [] := List.eq_nil_of_length_eq_zero (Nat.le_zero.mp hb)
    subst hbuf
    have hstop : sliceSteps fs hop ([] : List Int) = ([], ([] : List Int)) :=
      sliceSteps_stop (by simp)
    rw [hstop]
    simp
  | succ n ih =>
    intro buf extra hb
    by_cases h : fs ≤ buf.length ∧ 0 < hop ∧ 0 < buf.length
    · have hg2 : fs ≤ (buf ++ extra).length ∧ 0 < hop ∧
          0 < (buf ++ extra).length := by
        simp only [List.length_append]
        omega
      rw [sliceSteps_go hg2, sliceSteps_go h,
        List.take_append_of_le_length h.1,
        List.drop_append_of_le_length (le_trans hle h.1),
        ih (buf.drop hop) extra (by simp only [List.length_drop]; omega)]
      simp
    · rw [sliceSteps_stop h]
      simp

theorem sliceSteps_append {fs hop : Nat} (hhop : 0 < hop) (hle : hop ≤ fs)
    (buf extra : List Int) :
    sliceSteps fs hop (buf ++ extra) =
      ((sliceSteps fs hop buf).1 ++
          (sliceSteps fs hop ((sliceSteps fs hop buf).2 ++ extra)).1,
        (sliceSteps fs hop ((sliceSteps fs hop buf).2 ++ extra)).2) :=
  sliceSteps_append_aux fs hop hhop hle buf.length buf extra le_rfl

/-! Helper lemmas about the window, the windowing step and the fold. -/

theorem prepare_hamming_window_length (size : Nat) (scale : ℝ) :
    (prepare_hamming_window size scale).length = size := by
  simp only [prepare_hamming_window, List.length_map, List.length_range]

theorem prepare_hamming_window_get? {size : Nat} (scale : ℝ) {i : Nat}
    (h : i < size) :
    (prepare_hamming_window size scale).get? i =
      some (scale *
        (0.54 - 0.46 * Real.cos ((i : ℝ) * 2 * Real.pi / ((size : ℝ) - 1)))) := by
  rw [prepare_hamming_window, List.get?_map, List.get?_range h]
  rfl

theorem windowed_some {window : List ℝ} :
    ∀ (frame : List Int) (idx : Nat), idx + frame.length ≤ window.length →
      ∃ r, windowed window idx frame = some r ∧ r.length = frame.length := by
  intro frame
  induction frame with
  | nil => intro idx _; exact ⟨[], rfl, rfl⟩
  | cons s rest ih =>
    intro idx h
    have hidx : idx < window.length := by
      simp only [List.length_cons] at h
      omega
    obtain ⟨w, hw⟩ : ∃ w, window.get? idx = some w := by
      rw [List.get?_eq_get hidx]
      exact ⟨_, rfl⟩
    obtain ⟨r, hr, hlen⟩ := ih (idx + 1) (by
      simp only [List.length_cons] at h
      omega)
    refine ⟨Cplx.mk (w * (s : ℝ)) 0 :: r, ?_, by simp [hlen]⟩
    simp only [windowed, hw, hr]

theorem fold_output_some {l : List Cplx} (h : 0 < l.length) :
    ∃ out, fold_output l = some out ∧ out.length = l.length / 2 + 1 ∧
      ∀ i, i ≤ l.length / 2 →
        out.get? i = (l.get? i).map (fun c => c.re * c.re + c.im * c.im) := by
  have hs : (collectSome
      (fun idx => (l.get? idx).map (fun c => c.re * c.re + c.im * c.im))
      (List.range (l.length / 2 + 1))).isSome := by
    rw [collectSome_isSome]
    intro idx hidx
    rw [List.mem_range] at hidx
    have hlt : idx < l.length := by omega
    rw [List.get?_eq_get hlt]
    simp
  obtain ⟨out, hout⟩ := Option.isSome_iff_exists.mp hs
  refine ⟨out, hout, ?_, ?_⟩
  · have hl := collectSome_length hout
    simpa using hl
  · intro i hi
    rw [collectSome_get? hout i, List.get?_range (by omega)]
    rfl

theorem fold_output_isSome_iff (l : List Cplx) :
    (fold_output l).isSome ↔ l ≠ [] := by
  constructor
  · intro hs hnil
    subst hnil
    simp [fold_output, collectSome] at hs
  · intro hne
    have hpos : 0 < l.length := List.length_pos.mpr hne
    obtain ⟨out, hout, -, -⟩ := fold_output_some hpos
    simp [hout]

theorem processFrame_some {T : List Cplx → List Cplx} {window : List ℝ}
    {frame : List Int} (hlen : frame.length ≤ window.length)
    (hT : ∀ l, (T l).length = l.length) (hpos : 0 < frame.length) :
    ∃ out, processFrame T window frame = some out ∧
      out.length = frame.length / 2 + 1 := by
  obtain ⟨conv, hconv, hclen⟩ :=
    @windowed_some window frame 0 (by simpa using hlen)
  obtain ⟨out, hout, holen, -⟩ :=
    fold_output_some (l := T conv) (by rw [hT, hclen]; omega)
  exact ⟨out, by simp only [processFrame, hconv, hout],
    by rw [holen, hT, hclen]⟩

/-! Helper lemma unfolding one `consume` call. -/

theorem consume_eq {st : Fft} {s : FixedSlicer} (hsl : st.slicer = some s)
    (data : List Int) :
    st.consume data =
      (collectSome (processFrame st.fft st.hamming_window)
          (sliceSteps s.frame_size s.hop_size (s.buffer ++ data)).1).map
        (fun outs =>
          ({ st with slicer := some { s with buffer :=
              (sliceSteps s.frame_size s.hop_size (s.buffer ++ data)).2 } },
            outs)) := by
  cases hcs : collectSome (processFrame st.fft st.hamming_window)
      (sliceSteps s.frame_size s.hop_size (s.buffer ++ data)).1 <;>
    simp [Fft.consume, hsl, FixedSlicer.process, hcs]

/-! The cross-call invariant of the pipeline and reachability. -/

/-- A pipeline state holds a slicer configured with the construction
constants whose leftover buffer is strictly shorter than one frame. -/
def SlicerInv (st : Fft) : Prop :=
  ∃ s, st.slicer = some s ∧ s.frame_size = FRAME_SIZE ∧
    s.hop_size = FRAME_SIZE - OVERLAP ∧ s.buffer.length < FRAME_SIZE

theorem slicerInv_new (T : List Cplx → List Cplx) : SlicerInv (Fft.new T) :=
  ⟨FixedSlicer.new FRAME_SIZE (FRAME_SIZE - OVERLAP), rfl, rfl, rfl, by
    simp [FixedSlicer.new, FRAME_SIZE]⟩

theorem slicerInv_step {st st' : Fft} {data : List Int}
    {outs : List (List ℝ)} (hinv : SlicerInv st)
    (h : st.consume data = some (st', outs)) : SlicerInv st' := by
  obtain ⟨s, hsl, hfs, hhop, _⟩ := hinv
  rw [consume_eq hsl data] at h
  obtain ⟨outs0, _, heq⟩ := Option.map_eq_some'.mp h
  have hst' : st' = { st with slicer := some { s with buffer :=
      (sliceSteps s.frame_size s.hop_size (s.buffer ++ data)).2 } } :=
    (congrArg Prod.fst heq).symm
  refine ⟨{ s with buffer :=
      (sliceSteps s.frame_size s.hop_size (s.buffer ++ data)).2 },
    by rw [hst'], hfs, hhop, ?_⟩
  show (sliceSteps s.frame_size s.hop_size (s.buffer ++ data)).2.length <
    FRAME_SIZE
  rw [← hfs]
  exact sliceSteps_rest_length (by rw [hfs]; simp [FRAME_SIZE])
    (by rw [hhop]; decide) _

theorem reachable_inv {st : Fft} (h : Reachable st) : SlicerInv st := by
  induction h with
  | new T => exact slicerInv_new T
  | step _ hc ih => exact slicerInv_step ih hc

/-- Feeding no samples to a state satisfying the invariant yields no
consumer invocations and leaves the state unchanged. -/
theorem consume_nil_of_inv {st : Fft} (hinv : SlicerInv st) :
    st.consume [] = some (st, []) := by
  obtain ⟨s, hsl, hfs, hhop, hblen⟩ := hinv
  obtain ⟨sl, T, W⟩ := st
  simp only at hsl
  subst hsl
  rw [consume_eq rfl []]
  rw [List.append_nil, sliceSteps_stop (by omega)]
  simp

/-! Streaming equivalence: two `consume` calls agree with one call on the
concatenated input. -/

theorem consume2_eq (st : Fft) (a b : List Int) :
    consume2 st a b =
      (st.consume a).bind
        (fun p => (p.1.consume b).map (fun q => (q.1, p.2 ++ q.2))) := by
  cases h1 : st.consume a with
  | none => simp [consume2, h1]
  | some p => cases h2 : p.1.consume b <;> simp [consume2, h1, h2]

theorem consume_consume_append {st : Fft} {s : FixedSlicer}
    (hsl : st.slicer = some s) (hhop : 0 < s.hop_size)
    (hle : s.hop_size ≤ s.frame_size) (a b : List Int) :
    consume2 st a b = st.consume (a ++ b) := by
  have hassoc : s.buffer ++ (a ++ b) = (s.buffer ++ a) ++ b :=
    (List.append_assoc _ _ _).symm
  have hsl1 : ({ st with slicer := some { s with buffer :=
      (sliceSteps s.frame_size s.hop_size (s.buffer ++ a)).2 } } : Fft).slicer
        = some { s with buffer :=
          (sliceSteps s.frame_size s.hop_size (s.buffer ++ a)).2 } := rfl
  rw [consume2_eq, consume_eq hsl a, consume_eq hsl (a ++ b), hassoc,
    @sliceSteps_append s.frame_size s.hop_size hhop hle (s.buffer ++ a) b]
  cases hc1 : collectSome (processFrame st.fft st.hamming_window)
      (sliceSteps s.frame_size s.hop_size (s.buffer ++ a)).1 with
  | none =>
    rw [collectSome_append, hc1]
    rfl
  | some o1 =>
    rw [collectSome_append, hc1, Option.map_some', Option.some_bind,
      Option.some_bind]
    show (({ st with slicer := some { s with buffer :=
        (sliceSteps s.frame_size s.hop_size (s.buffer ++ a)).2 } } : Fft).consume
          b).map _ = _
    rw [consume_eq hsl1 b]
    cases hc2 : collectSome (processFrame st.fft st.hamming_window)
        (sliceSteps s.frame_size s.hop_size
          ((sliceSteps s.frame_size s.hop_size (s.buffer ++ a)).2 ++ b)).1 with
    | none => rfl
    | some o2 => rfl

/-! The claim theorems. -/

/-- C1 counterexample: on the empty spectrum, `fold_output` does not
return a sequence of length `0/2 + 1 = 1`; it reads index 0 out of bounds
(a panic, modelled as `none`). -/
theorem fold_output_empty_counterexample :
    fold_output ([] : List Cplx) = none := rfl

/-- C1 (amended): for every NON-EMPTY complex spectrum input,
`fold_output` returns a real sequence of length `len/2 + 1`, and for each
index `i` in `[0, len/2]` the output element equals
`re(spectrum[i])^2 + im(spectrum[i])^2` (power: no square root, no
normalization by the transform size). -/
theorem fold_output_power_spectrum {l : List Cplx} (h : 0 < l.length) :
    ∃ out, fold_output l = some out ∧ out.length = l.length / 2 + 1 ∧
      ∀ i, i ≤ l.length / 2 →
        out.get? i = (l.get? i).map (fun c => c.re ^ 2 + c.im ^ 2) := by
  obtain ⟨out, h1, h2, h3⟩ := fold_output_some h
  refine ⟨out, h1, h2, fun i hi => ?_⟩
  rw [h3 i hi]
  cases l.get? i <;> simp [pow_two]

/-- Witness for C1's amended theorem at the concrete spectrum
`[3 + 4i]`. -/
theorem fold_output_power_spectrum_witness :
    ∃ out, fold_output [Cplx.mk 3 4] = some out ∧
      out.length = [Cplx.mk 3 4].length / 2 + 1 ∧
      ∀ i, i ≤ [Cplx.mk 3 4].length / 2 →
        out.get? i = ([Cplx.mk 3 4].get? i).map
          (fun c => c.re ^ 2 + c.im ^ 2) :=
  fold_output_power_spectrum (by simp)

/-- C2: feeding `consume` two chunks on a freshly constructed pipeline is
equivalent to feeding their concatenation in one call: the sequences of
folded spectra delivered to the consumer (and the resulting states,
including panic behavior) coincide. -/
theorem consume_streaming_equivalence (T : List Cplx → List Cplx)
    (a b : List Int) :
    consume2 (Fft.new T) a b = (Fft.new T).consume (a ++ b) :=
  consume_consume_append rfl (by decide) (by decide) a b

/-- C3: in every pipeline state reachable from construction via prior
`consume` calls, calling `consume` with an empty sample sequence invokes
the consumer zero times (and leaves the state unchanged). -/
theorem consume_nil_no_frames {st : Fft} (h : Reachable st) :
    st.consume [] = some (st, []) :=
  consume_nil_of_inv (reachable_inv h)

/-- Witness for C3 at the freshly constructed pipeline. -/
theorem consume_nil_no_frames_witness :
    (Fft.new (fun l => l)).consume [] = some (Fft.new (fun l => l), []) :=
  consume_nil_no_frames (Reachable.new (fun l => l))

/-- C4: on a freshly constructed pipeline, `consume` with exactly
`FRAME_SIZE = 4096` samples invokes the consumer exactly once, and the
delivered folded spectrum has length `FRAME_SIZE/2 + 1 = 2049`.  The
transform engine `T` satisfies its contract of transforming a buffer in
place (preserving its length). -/
theorem consume_one_frame (T : List Cplx → List Cplx)
    (hT : ∀ l, (T l).length = l.length) (data : List Int)
    (hdata : data.length = FRAME_SIZE) :
    ∃ st' out, (Fft.new T).consume data = some (st', [out]) ∧
      out.length = 2049 := by
  have hFS : FRAME_SIZE = 4096 := rfl
  have hhop : FRAME_SIZE - OVERLAP = 1365 := rfl
  have hsl : (Fft.new T).slicer =
      some (FixedSlicer.new FRAME_SIZE (FRAME_SIZE - OVERLAP)) := rfl
  obtain ⟨out, hpf, holen⟩ := @processFrame_some T
    (prepare_hamming_window FRAME_SIZE (1 / 32767)) data
    (by rw [prepare_hamming_window_length, hdata]) hT (by omega)
  have hfft : (Fft.new T).fft = T := rfl
  have hwin : (Fft.new T).hamming_window =
      prepare_hamming_window FRAME_SIZE (1 / 32767) := by
    simp only [Fft.new]
  have hb : (FixedSlicer.new FRAME_SIZE (FRAME_SIZE - OVERLAP)).buffer
      = [] := rfl
  have hf : (FixedSlicer.new FRAME_SIZE (FRAME_SIZE - OVERLAP)).frame_size
      = FRAME_SIZE := rfl
  have hh : (FixedSlicer.new FRAME_SIZE (FRAME_SIZE - OVERLAP)).hop_size
      = FRAME_SIZE - OVERLAP := rfl
  have hmain := consume_eq hsl data
  rw [hfft, hwin, hb, hf, hh, List.nil_append,
    sliceSteps_go ⟨by omega, by omega, by omega⟩,
    sliceSteps_stop (by simp only [List.length_drop]; omega),
    show data.take FRAME_SIZE = data from by
      rw [← hdata, List.take_length]] at hmain
  simp only [collectSome_cons, collectSome_nil, hpf, Option.some_bind,
    Option.map_some'] at hmain
  exact ⟨_, out, hmain, by rw [holen, hdata]; rfl⟩

/-- Witness for C4 at the concrete input of 4096 zero samples and the
identity transform. -/
theorem consume_one_frame_witness :
    ∃ st' out, (Fft.new (fun l => l)).consume
        (List.replicate 4096 0) = some (st', [out]) ∧
      out.length = 2049 :=
  consume_one_frame (fun l => l) (fun _ => rfl) (List.replicate 4096 0)
    (by rw [List.length_replicate]; rfl)

/-- C5: the precomputed window of the pipeline satisfies
`window[i] = scale * (0.54 - 0.46 * cos(2 * pi * i / (N - 1)))` for every
`i` in `[0, N)`, with `N = 4096` and `scale = 1/32767`; it is computed
once, at construction, by `Fft::new`. -/
theorem hamming_window_formula (T : List Cplx → List Cplx) (i : Nat)
    (h : i < 4096) :
    (Fft.new T).hamming_window.get? i =
      some ((1 / 32767 : ℝ) *
        (0.54 - 0.46 * Real.cos (2 * Real.pi * (i : ℝ) / ((4096 : ℝ) - 1)))) := by
  have hw : (Fft.new T).hamming_window =
      prepare_hamming_window FRAME_SIZE (1 / 32767) := by
    simp only [Fft.new]
  have hFS : FRAME_SIZE = 4096 := rfl
  have hcast : ((FRAME_SIZE : ℕ) : ℝ) = 4096 := by
    rw [hFS]
    norm_cast
  have harg : (i : ℝ) * 2 * Real.pi / (((FRAME_SIZE : ℕ) : ℝ) - 1) =
      2 * Real.pi * (i : ℝ) / ((4096 : ℝ) - 1) := by
    rw [hcast]
    ring
  rw [hw, prepare_hamming_window_get? _ (show i < FRAME_SIZE from h), harg]

/-- Witness for C5 at index 0. -/
theorem hamming_window_formula_witness :
    (Fft.new (fun l => l)).hamming_window.get? 0 =
      some ((1 / 32767 : ℝ) *
        (0.54 - 0.46 * Real.cos (2 * Real.pi * ((0 : ℕ) : ℝ) / ((4096 : ℝ) - 1)))) :=
  hamming_window_formula (fun l => l) 0 (by norm_num)

/-- C6: for every size `S >= 2`, every scale, and every index `i` in
`[0, S)`, the built window is symmetric:
`prepare_hamming_window S scale [i] = prepare_hamming_window S scale [S-1-i]`. -/
theorem build_window_symmetric (S : Nat) (scale : ℝ) (i : Nat)
    (hS : 2 ≤ S) (hi : i < S) :
    (prepare_hamming_window S scale).get? i =
      (prepare_hamming_window S scale).get? (S - 1 - i) := by
  have hi' : S - 1 - i < S := by omega
  rw [prepare_hamming_window_get? _ hi, prepare_hamming_window_get? _ hi']
  have hd : ((S : ℝ) - 1) ≠ 0 := by
    have h2 : (2 : ℝ) ≤ (S : ℝ) := by exact_mod_cast hS
    linarith
  have hcast : ((S - 1 - i : ℕ) : ℝ) = (S : ℝ) - 1 - (i : ℝ) := by
    have h1i : 1 + i ≤ S := by omega
    rw [show S - 1 - i = S - (1 + i) from by omega, Nat.cast_sub h1i]
    push_cast
    ring
  have harg : ((S : ℝ) - 1 - (i : ℝ)) * 2 * Real.pi / ((S : ℝ) - 1) =
      2 * Real.pi - (i : ℝ) * 2 * Real.pi / ((S : ℝ) - 1) := by
    field_simp
    ring
  have hcos : Real.cos (((S : ℝ) - 1 - (i : ℝ)) * 2 * Real.pi / ((S : ℝ) - 1))
      = Real.cos ((i : ℝ) * 2 * Real.pi / ((S : ℝ) - 1)) := by
    rw [harg, Real.cos_sub, Real.cos_two_pi, Real.sin_two_pi]
    ring
  rw [hcast, hcos]

/-- Witness for C6 at `S = 2`, `scale = 1`, `i = 0`. -/
theorem build_window_symmetric_witness :
    (prepare_hamming_window 2 1).get? 0 =
      (prepare_hamming_window 2 1).get? (2 - 1 - 0) :=
  build_window_symmetric 2 1 0 (by norm_num) (by norm_num)

/-- C7 evaluation at the failing input: at `size = 1`, the code does
evaluate the degenerate phase term with denominator `size - 1 = 0` (the
division `0 / 0`; `NaN` in `f32`, `0` in the real-number model), so the
single window element is `scale * (0.54 - 0.46) = 0.08 * scale` — not the
single weight `scale` the claim requires (`0.08 ≠ 1` at `scale = 1`). -/
theorem build_window_size_one_evaluates_phase :
    prepare_hamming_window 1 1 = [(0.08 : ℝ)] ∧ (0.08 : ℝ) ≠ 1 := by
  constructor
  · have hr1 : List.range 1 = [0] := rfl
    simp only [prepare_hamming_window, hr1, List.map_cons,
      List.map_nil, Nat.cast_zero, Nat.cast_one, zero_mul, sub_self,
      div_zero, zero_div, Real.cos_zero]
    norm_num
  · norm_num

/-- C9: `fold_output` is total exactly on the non-empty inputs: it never
fails if and only if its input is non-empty (on the empty input it reads
index 0 out of bounds, a panic). -/
theorem fold_output_total_iff_nonempty :
    fold_output ([] : List Cplx) = none ∧
      ∀ l : List Cplx, (fold_output l).isSome ↔ l ≠ [] :=
  ⟨rfl, fold_output_isSome_iff⟩

/-- C10: every `consume` call that returns normally restores the
pipeline's `slicer` field to `Some` and leaves the `hamming_window` and
`fft` fields unchanged, so `consume` can be called again; the window is
never mutated after construction. -/
theorem consume_restores_state {st st' : Fft} {data : List Int}
    {outs : List (List ℝ)} (h : st.consume data = some (st', outs)) :
    st'.slicer.isSome ∧ st'.hamming_window = st.hamming_window ∧
      st'.fft = st.fft := by
  cases hsl : st.slicer with
  | none => simp [Fft.consume, hsl] at h
  | some s =>
    rw [consume_eq hsl data] at h
    obtain ⟨outs0, -, heq⟩ := Option.map_eq_some'.mp h
    have hst' : st' = { st with slicer := some { s with buffer :=
        (sliceSteps s.frame_size s.hop_size (s.buffer ++ data)).2 } } :=
      (congrArg Prod.fst heq).symm
    rw [hst']
    exact ⟨rfl, rfl, rfl⟩

/-- Witness for C10 at the freshly constructed pipeline consuming the
empty sample sequence. -/
theorem consume_restores_state_witness :
    (Fft.new (fun l => l)).slicer.isSome ∧
      (Fft.new (fun l => l)).hamming_window =
        (Fft.new (fun l => l)).hamming_window ∧
      (Fft.new (fun l => l)).fft = (Fft.new (fun l => l)).fft :=
  consume_restores_state (consume_nil_of_inv (slicerInv_new (fun l => l)))
